import Mathlib

/-!
Verification of the IBM Model 2 translation program (`model2.py`).

The development shallowly embeds the program's data model and operations:

* `Vocab` with `add`, `numberize`, `denumberize` — the word/id bidirectional
  mapping.  The Python `word_to_num` dict is modelled as an association list
  with first-match lookup (keys are never duplicated because `add` is guarded
  by a membership test, so this is an exact model of the dict).  Fallible dict
  and list indexing is modelled with `Option`.
* `Encoder`, `Decoder` (`start`/`step`) and `Model` (`logprob`/`translate`).
  The numeric runtime primitives that live outside this module
  (`Embedding`, `SoftmaxLayer`, `attention` from `layers`) are external
  collaborators; they are kept abstract, as an embedding function `Nat → Vec`,
  a per-row scoring function on `Vec`, and an attention function passed
  as a parameter `att`.  All theorems quantify over them, so they hold for
  every implementation of the numeric layer.
* The checkpoint-selection fold of the training loop.

Scores are modelled as integers standing in for the floating-point scores;
the claims proved here do not depend on the numeric values, only on control
flow, indexing and data flow, so any linearly ordered additive score type
models the float scores equally well.
-/

/-- A vector of scores/activations (a row of a tensor). -/
abbrev Vec := List ℤ

/-- `Vocab`: set-like structure mapping words to numbers and back
(`model2.py` lines 15–44).  `num_to_word` is the Python list, `word_to_num`
the Python dict, modelled as an association list with first-match lookup. -/
structure Vocab where
  num_to_word : List String
  word_to_num : List (String × Nat)
deriving DecidableEq

/-- `Vocab.__init__`: starts with the three reserved tokens.  The Python code
iterates over the set literal `{'<BOS>', '<EOS>', '<UNK>'}`, whose order is an
implementation detail; we fix one order.  No claim below depends on the
relative order of the three reserved tokens. -/
def Vocab.init : Vocab :=
  { num_to_word := ["<BOS>", "<EOS>", "<UNK>"]
    word_to_num := [("<BOS>", 0), ("<EOS>", 1), ("<UNK>", 2)] }

/-- `word in vocab` (`Vocab.__contains__`): membership in the dict. -/
def Vocab.contains (v : Vocab) (w : String) : Bool :=
  (v.word_to_num.lookup w).isSome

/-- `Vocab.add`: no-op if the word is present, otherwise append it to
`num_to_word` and record its id (the old length) in `word_to_num`. -/
def Vocab.add (v : Vocab) (w : String) : Vocab :=
  if v.contains w then v
  else
    { num_to_word := v.num_to_word ++ [w]
      word_to_num := v.word_to_num ++ [(w, v.num_to_word.length)] }

/-- `Vocab.numberize`: id for a known word, else the id of `'<UNK>'`.
Returns `none` only when the `'<UNK>'` dict access itself would raise, which
never happens for vocabularies built from `Vocab.init`. -/
def Vocab.numberize (v : Vocab) (w : String) : Option Nat :=
  match v.word_to_num.lookup w with
  | some n => some n
  | none => v.word_to_num.lookup "<UNK>"

/-- `Vocab.denumberize`: list indexing `num_to_word[num]`; `none` models the
out-of-range `IndexError`.  (Indices are naturals here; the callers in
`model2.py` only produce non-negative indices.) -/
def Vocab.denumberize (v : Vocab) (n : Nat) : Option String :=
  v.num_to_word.get? n

/-- A vocabulary built from `Vocab.init` by a sequence of `add` operations,
as `__main__` does with `fvocab |= fwords` (element-wise `add`). -/
def Vocab.ofWords (ws : List String) : Vocab :=
  ws.foldl Vocab.add Vocab.init

/-- Soundness of the dict with respect to the list: every id the dict assigns
to a word is the index of that word in `num_to_word`.  This is the invariant
`Vocab.__init__` establishes and `add` maintains. -/
def Vocab.LookupSound (v : Vocab) : Prop :=
  ∀ w n, v.word_to_num.lookup w = some n → v.num_to_word.get? n = some w

namespace VocabLemmas

theorem lookup_append_some {l₁ l₂ : List (String × Nat)} {a : String} {b : Nat}
    (h : l₁.lookup a = some b) : (l₁ ++ l₂).lookup a = some b := by
  induction l₁ with
  | nil => simp [List.lookup] at h
  | cons p l ih =>
    obtain ⟨k, c⟩ := p
    simp only [List.cons_append, List.lookup] at h ⊢
    cases hak : a == k with
    | true => simpa [hak] using h
    | false =>
      rw [hak] at h
      simpa [hak] using ih h

theorem lookup_append_none {l₁ l₂ : List (String × Nat)} {a : String}
    (h : l₁.lookup a = none) : (l₁ ++ l₂).lookup a = l₂.lookup a := by
  induction l₁ with
  | nil => simp
  | cons p l ih =>
    obtain ⟨k, c⟩ := p
    simp only [List.cons_append, List.lookup] at h ⊢
    cases hak : a == k with
    | true => rw [hak] at h; simp at h
    | false =>
      rw [hak] at h
      simpa [hak] using ih h

theorem init_sound : Vocab.LookupSound Vocab.init := by
  intro w n h
  by_cases h0 : w = "<BOS>"
  · subst h0
    have hn : n = 0 := by simp [Vocab.init, List.lookup] at h; omega
    subst hn; rfl
  · by_cases h1 : w = "<EOS>"
    · subst h1
      have hn : n = 1 := by simp [Vocab.init, List.lookup] at h; omega
      subst hn; rfl
    · by_cases h2 : w = "<UNK>"
      · subst h2
        have hn : n = 2 := by simp [Vocab.init, List.lookup] at h; omega
        subst hn; rfl
      · exfalso
        have b0 : (w == "<BOS>") = false := by simp [h0]
        have b1 : (w == "<EOS>") = false := by simp [h1]
        have b2 : (w == "<UNK>") = false := by simp [h2]
        simp [Vocab.init, List.lookup, b0, b1, b2] at h

/-- `add` preserves dict/list agreement. -/
theorem add_sound {v : Vocab} (hv : v.LookupSound) (w : String) :
    (v.add w).LookupSound := by
  intro u n h
  cases hc : v.contains w with
  | true =>
    rw [Vocab.add, if_pos hc] at h ⊢
    exact hv u n h
  | false =>
    rw [Vocab.add, if_neg (by simp [hc])] at h ⊢
    dsimp only at h ⊢
    cases hlu : v.word_to_num.lookup u with
    | some m =>
      rw [lookup_append_some hlu] at h
      obtain rfl : m = n := by simpa using h
      have := hv u m hlu
      have hlt : m < v.num_to_word.length := (List.get?_eq_some.mp this).1
      rw [List.get?_append hlt]
      exact this
    | none =>
      rw [lookup_append_none hlu] at h
      simp only [List.lookup] at h
      cases huw : u == w with
      | false => rw [huw] at h; simp at h
      | true =>
        rw [huw] at h
        obtain rfl : v.num_to_word.length = n := by simpa using h
        obtain rfl : u = w := by simpa using huw
        simpa using List.get?_concat_length v.num_to_word u

theorem foldl_add_sound {v : Vocab} (hv : v.LookupSound) (ws : List String) :
    (ws.foldl Vocab.add v).LookupSound := by
  induction ws generalizing v with
  | nil => exact hv
  | cons w ws ih => exact ih (add_sound hv w)

theorem ofWords_sound (ws : List String) : (Vocab.ofWords ws).LookupSound :=
  foldl_add_sound init_sound ws

/-- `add` never removes a word: a present word stays present. -/
theorem contains_add_of_contains {v : Vocab} {u : String} (w : String)
    (h : v.contains u = true) : (v.add w).contains u = true := by
  unfold Vocab.add
  by_cases hc : v.contains w
  · simpa [hc]
  · simp only [hc, if_false]
    unfold Vocab.contains at h ⊢
    cases hlu : v.word_to_num.lookup u with
    | none => rw [hlu] at h; simp at h
    | some m => simp [lookup_append_some hlu]

/-- A present word's dict entry is untouched by `add`. -/
theorem lookup_add_of_contains {v : Vocab} {u : String} (w : String)
    (h : v.contains u = true) :
    (v.add w).word_to_num.lookup u = v.word_to_num.lookup u := by
  unfold Vocab.add
  by_cases hc : v.contains w
  · simp [hc]
  · simp only [hc, if_false]
    unfold Vocab.contains at h
    cases hlu : v.word_to_num.lookup u with
    | none => rw [hlu] at h; simp at h
    | some m => simp [lookup_append_some hlu, hlu]

theorem contains_foldl_add_of_contains {v : Vocab} {u : String}
    (ws : List String) (h : v.contains u = true) :
    (ws.foldl Vocab.add v).contains u = true := by
  induction ws generalizing v with
  | nil => exact h
  | cons w ws ih => exact ih (contains_add_of_contains w h)

theorem lookup_foldl_add_of_contains {v : Vocab} {u : String}
    (ws : List String) (h : v.contains u = true) :
    ((ws.foldl Vocab.add v).word_to_num.lookup u) = v.word_to_num.lookup u := by
  induction ws generalizing v with
  | nil => rfl
  | cons w ws ih =>
    rw [List.foldl_cons, ih (contains_add_of_contains w h),
      lookup_add_of_contains w h]

/-- Every vocabulary built by `add`s from `init` still contains `'<UNK>'`. -/
theorem ofWords_contains_unk (ws : List String) :
    (Vocab.ofWords ws).contains "<UNK>" = true :=
  contains_foldl_add_of_contains ws (by decide)

end VocabLemmas

/-- `Encoder` (`model2.py` 63–71).  The `Embedding` table from `layers` is an
external collaborator of this module; it is modelled as an abstract per-id
lookup `emb : Nat → Vec`. -/
structure Encoder where
  emb : Nat → Vec

/-- `Encoder.sequence`: embed each source id (row-wise application of the
embedding table to the id tensor). -/
def Encoder.sequence (e : Encoder) (fnums : List Nat) : List Vec :=
  fnums.map e.emb

/-- The type of the external `attention` function from `layers`:
query, keys, values ↦ mixed output row.  All theorems below quantify over
it, so they hold for every implementation of the numeric layer. -/
abbrev Attention := Vec → List Vec → List Vec → Vec

/-- `Decoder` (`model2.py` 73–130).  `fpos`/`epos` are the two position
embedding tables (`maxlen` rows each in the source constructor); `out` is the
external `SoftmaxLayer`, modelled as its per-row application. -/
structure Decoder where
  fpos : List Vec
  epos : List Vec
  out : Vec → Vec

/-- `self.maxlen = 100` in `Decoder.__init__`. -/
def Decoder.maxlen : Nat := 100

/-- `Decoder.start`: the initial state is the English position 0. -/
def Decoder.start (_d : Decoder) : Nat := 0

/-- `Decoder.step` (`model2.py` 103–130): one decoder step.  `epos[state]` is
fallible tensor row indexing (`IndexError` when `state` is out of range),
modelled with `get?`; `fpos[:flen]` is a slice, modelled with `take`; the
previous English word `enum` is accepted but never read by the body.
Returns `(logprobs, state + 1)`. -/
def Decoder.step (att : Attention) (d : Decoder) (fencs : List Vec)
    (state : Nat) (enum : Nat) : Option (Vec × Nat) :=
  let flen := fencs.length
  let v := fencs.map d.out
  match d.epos.get? state with
  | none => none
  | some q =>
    let k := d.fpos.take flen
    some (att q k v, state + 1)

/-- `Model` (`model2.py` 132–194).  The constructor stores the vocabularies on
the object so they are saved and loaded with it; note that the method bodies
of `logprob`/`translate` nonetheless read the module-level globals
(bare `fvocab`/`evocab` in the source, not `self.fvocab`/`self.evocab`). -/
structure Model where
  fvocab : Vocab
  evocab : Vocab
  enc : Encoder
  dec : Decoder

/-- Helper for `argmax`: scan the tail, remembering the current best index
and value; a new entry wins only if strictly greater, so the first maximal
entry is kept. -/
def argmaxAux : List ℤ → Nat → Nat → ℤ → Nat
  | [], _, bi, _ => bi
  | x :: xs, i, bi, bv =>
    if bv < x then argmaxAux xs (i + 1) i x else argmaxAux xs (i + 1) bi bv

/-- `torch.argmax(o).item()`: index of the first maximal entry of the row.
(`torch.argmax` on an empty tensor raises; every use below is on a row a
length hypothesis makes nonempty, so the `0` default is never relied on.) -/
def argmax : List ℤ → Nat
  | [] => 0
  | x :: xs => argmaxAux xs 1 0 x

/-- Apply a fallible function to every element, failing if any application
fails: the Python list comprehensions over `numberize`/`denumberize`
(an exception in any element aborts the whole comprehension). -/
def mapFallible : (α → Option β) → List α → Option (List β)
  | _, [] => some []
  | f, x :: xs => (f x).bind fun y => (mapFallible f xs).map fun ys => y :: ys

/-- The body of the `for i in range(len(ewords))` loop of `Model.logprob`:
thread the decoder state `h`, the accumulated log-probability `acc` and the
previous word id `enum` through the remaining target words.  `o[enum]` is
fallible tensor indexing, modelled with `get?`. -/
def logprobLoop (att : Attention) (ge : Vocab) (dec : Decoder) (fencs : List Vec) :
    List String → Nat → ℤ → Nat → Option ℤ
  | [], _, acc, _ => some acc
  | w :: ws, h, acc, enum =>
    match Decoder.step att dec fencs h enum with
    | none => none
    | some (o, h') =>
      match ge.numberize w with
      | none => none
      | some enum' =>
        match o.get? enum' with
        | none => none
        | some p => logprobLoop att ge dec fencs ws h' (acc + p) enum'

/-- `Model.logprob(fwords, ewords)` (`model2.py` 153–172).  `gf`/`ge` are the
module-level globals `fvocab`/`evocab` that the method body reads. -/
def Model.logprob (att : Attention) (gf ge : Vocab) (m : Model)
    (fwords ewords : List String) : Option ℤ :=
  match mapFallible gf.numberize fwords with
  | none => none
  | some fnums =>
    let fencs := m.enc.sequence fnums
    match ge.numberize "<BOS>" with
    | none => none
    | some b => logprobLoop att ge m.dec fencs ewords m.dec.start 0 b

/-- The `for i in range(100)` loop of `Model.translate`: `fuel` counts the
remaining iterations (initially 100), `acc` is the list `ewords` of emitted
ids.  The loop breaks, without emitting, at the first step whose argmax word
denumberizes to `'<EOS>'`. -/
def translateLoop (att : Attention) (ge : Vocab) (dec : Decoder) (fencs : List Vec) :
    Nat → Nat → Nat → List Nat → Option (List Nat)
  | 0, _, _, acc => some acc
  | fuel + 1, h, enum, acc =>
    match Decoder.step att dec fencs h enum with
    | none => none
    | some (o, h') =>
      let enum' := argmax o
      match ge.denumberize enum' with
      | none => none
      | some w =>
        if w = "<EOS>" then some acc
        else translateLoop att ge dec fencs fuel h' enum' (acc ++ [enum'])

/-- `Model.translate(fwords)` (`model2.py` 174–194): greedy decoding, then
denumberize the emitted ids.  As in `logprob`, the vocabularies used are the
module-level globals `gf`/`ge`. -/
def Model.translate (att : Attention) (gf ge : Vocab) (m : Model)
    (fwords : List String) : Option (List String) :=
  match mapFallible gf.numberize fwords with
  | none => none
  | some fnums =>
    let fencs := m.enc.sequence fnums
    match ge.numberize "<BOS>" with
    | none => none
    | some b =>
      match translateLoop att ge m.dec fencs 100 m.dec.start b [] with
      | none => none
      | some enums => mapFallible ge.denumberize enums

section Checkpoint

variable {α : Type}

/-- The checkpoint update of the training loop (`model2.py` 244–246):
snapshot (deep-copy) the model and record its dev loss when no best exists
yet (first epoch) or when the epoch's dev loss is strictly lower. -/
def checkpointUpdate (best : Option (ℤ × α)) (devLoss : ℤ) (m : α) :
    Option (ℤ × α) :=
  match best with
  | none => some (devLoss, m)
  | some (b, bm) => if devLoss < b then some (devLoss, m) else some (b, bm)

/-- The `(best_dev_loss, best_model)` pair after a run of epochs, each epoch
contributing its dev loss and the model value at the end of that epoch
(`model2.py` 216–246, the checkpoint-selection part of the loop). -/
def trainCheckpoints (epochs : List (ℤ × α)) : Option (ℤ × α) :=
  epochs.foldl (fun best e => checkpointUpdate best e.1 e.2) none

end Checkpoint

/-! ### Concrete instances used by witnesses and counterexamples -/

/-- A concrete attention instance whose output row makes index 1 the argmax;
under `Vocab.init` index 1 denumberizes to `'<EOS>'`, so greedy decoding
stops immediately. -/
def attEnd : Attention := fun _ _ _ => [0, 1, 0]

/-- A concrete attention instance returning a flat row of width 4, matching
the four-word vocabulary `Vocab.ofWords ["a"]`. -/
def attFlat : Attention := fun _ _ _ => [0, 0, 0, 0]

/-- A concrete decoder with the source constructor's 100-row position
tables. -/
def dec0 : Decoder :=
  { fpos := List.replicate 100 [0]
    epos := List.replicate 100 [0]
    out := fun _ => [] }

/-- A concrete encoder. -/
def enc0 : Encoder := { emb := fun _ => [0] }

/-- A concrete model over the initial vocabulary. -/
def model0 : Model :=
  { fvocab := Vocab.init, evocab := Vocab.init, enc := enc0, dec := dec0 }

/-- The four-word vocabulary `{<BOS>, <EOS>, <UNK>, a}`. -/
def vocabA : Vocab := Vocab.ofWords ["a"]

/-- A concrete model over `vocabA`. -/
def modelA : Model :=
  { fvocab := vocabA, evocab := vocabA, enc := enc0, dec := dec0 }

/-! ### Claim theorems -/

/-- C2: the output of `Decoder.step` does not depend on the previous target
word argument: for every attention function, decoder parameters, source
encodings, state, and pair of previous-word ids, the two calls return the
same log-probability vector and the same new state. -/
theorem step_ignores_prev_word (att : Attention) (d : Decoder)
    (fencs : List Vec) (i : Nat) (enum1 enum2 : Nat) :
    Decoder.step att d fencs i enum1 = Decoder.step att d fencs i enum2 := rfl

/-- C4: `Decoder.start` returns 0, and whenever `Decoder.step` returns, the
new state is the old state plus 1, for every attention function, source
encodings and previous-word id. -/
theorem start_zero_and_step_increments (d : Decoder) :
    d.start = 0 ∧
      ∀ (att : Attention) (fencs : List Vec) (i enum : Nat) (r : Vec × Nat),
        Decoder.step att d fencs i enum = some r → r.2 = i + 1 := by
  refine ⟨rfl, ?_⟩
  intro att fencs i enum r h
  unfold Decoder.step at h
  cases hq : d.epos.get? i with
  | none => rw [hq] at h; exact absurd h (by simp)
  | some q =>
    rw [hq] at h
    obtain rfl : (att q (d.fpos.take fencs.length) (fencs.map d.out), i + 1) = r := by
      simpa using h
    rfl

/-- Witness for C4: a concrete step call whose returned state is 0 + 1. -/
theorem start_zero_and_step_increments_witness :
    dec0.start = 0 ∧
      ∃ r, Decoder.step attEnd dec0 [] 0 5 = some r ∧ r.2 = 0 + 1 :=
  ⟨(start_zero_and_step_increments dec0).1,
    ([0, 1, 0], 1), rfl,
    (start_zero_and_step_increments dec0).2 attEnd [] 0 5 ([0, 1, 0], 1) rfl⟩

/-- C10: `Model.logprob` and `Model.translate` consult only the module-level
global vocabularies (the parameters `gf`/`ge` here): two models with
identical parameters but different `fvocab`/`evocab` fields return identical
results under the same globals, on every input. -/
theorem methods_use_global_vocabs (att : Attention) (gf ge : Vocab)
    (enc : Encoder) (dec : Decoder) (fv1 ev1 fv2 ev2 : Vocab)
    (fwords ewords : List String) :
    Model.logprob att gf ge ⟨fv1, ev1, enc, dec⟩ fwords ewords =
        Model.logprob att gf ge ⟨fv2, ev2, enc, dec⟩ fwords ewords ∧
      Model.translate att gf ge ⟨fv1, ev1, enc, dec⟩ fwords =
        Model.translate att gf ge ⟨fv2, ev2, enc, dec⟩ fwords :=
  ⟨rfl, rfl⟩

/-- C5: for every vocabulary built by a sequence of `add` operations and
every word `w` it contains, `denumberize (numberize w) = w`, and the id that
`numberize w` returns is stable: any later call, including after further
`add`s, returns the same id. -/
theorem numberize_roundtrip_stable (ws : List String) (w : String)
    (hc : (Vocab.ofWords ws).contains w = true) :
    ∃ n, (Vocab.ofWords ws).numberize w = some n ∧
      (Vocab.ofWords ws).denumberize n = some w ∧
      ∀ us, (Vocab.ofWords (ws ++ us)).numberize w = some n := by
  obtain ⟨n, hn⟩ : ∃ n, (Vocab.ofWords ws).word_to_num.lookup w = some n :=
    Option.isSome_iff_exists.mp hc
  refine ⟨n, ?_, ?_, ?_⟩
  · simp [Vocab.numberize, hn]
  · exact VocabLemmas.ofWords_sound ws w n hn
  · intro us
    have hstable : (Vocab.ofWords (ws ++ us)).word_to_num.lookup w = some n := by
      have h1 : Vocab.ofWords (ws ++ us) = us.foldl Vocab.add (Vocab.ofWords ws) := by
        unfold Vocab.ofWords
        rw [List.foldl_append]
      rw [h1, VocabLemmas.lookup_foldl_add_of_contains us hc]
      exact hn
    simp [Vocab.numberize, hstable]

/-- Witness for C5 at the vocabulary `{<BOS>, <EOS>, <UNK>, a}`. -/
theorem numberize_roundtrip_stable_witness :
    (Vocab.ofWords ["a"]).contains "a" = true ∧
      ∃ n, (Vocab.ofWords ["a"]).numberize "a" = some n ∧
        (Vocab.ofWords ["a"]).denumberize n = some "a" ∧
        ∀ us, (Vocab.ofWords (["a"] ++ us)).numberize "a" = some n :=
  ⟨by decide, numberize_roundtrip_stable ["a"] "a" (by decide)⟩

/-- C6: on every vocabulary built by `add`s, `numberize` is total (never
fails), and on a word not contained in the vocabulary it returns exactly
`numberize '<UNK>'`. -/
theorem numberize_total_unk_fallback (ws : List String) (w : String) :
    ((Vocab.ofWords ws).numberize w).isSome = true ∧
      ((Vocab.ofWords ws).contains w = false →
        (Vocab.ofWords ws).numberize w = (Vocab.ofWords ws).numberize "<UNK>") := by
  obtain ⟨u, hu⟩ : ∃ u, (Vocab.ofWords ws).word_to_num.lookup "<UNK>" = some u :=
    Option.isSome_iff_exists.mp (VocabLemmas.ofWords_contains_unk ws)
  constructor
  · unfold Vocab.numberize
    cases hlu : (Vocab.ofWords ws).word_to_num.lookup w with
    | some n => simp
    | none => simp [hu]
  · intro hnc
    have hlw : (Vocab.ofWords ws).word_to_num.lookup w = none := by
      cases hlu : (Vocab.ofWords ws).word_to_num.lookup w with
      | none => rfl
      | some n => unfold Vocab.contains at hnc; rw [hlu] at hnc; simp at hnc
    simp [Vocab.numberize, hlw, hu]

/-- Witness for C6: an unseen word maps to the `'<UNK>'` id. -/
theorem numberize_total_unk_fallback_witness :
    (Vocab.ofWords []).contains "zzz" = false ∧
      ((Vocab.ofWords []).numberize "zzz").isSome = true ∧
      (Vocab.ofWords []).numberize "zzz" = (Vocab.ofWords []).numberize "<UNK>" :=
  ⟨by decide, (numberize_total_unk_fallback [] "zzz").1,
    (numberize_total_unk_fallback [] "zzz").2 (by decide)⟩

/-- C7: on every vocabulary built by `add`s, `add` is idempotent (a no-op on
a present word, returning the very same structure); on an absent word it
appends the word and assigns it the pre-call size as its id; the ids of all
previously present words are unchanged by `add`; and every previously
assigned id is below the pre-call size, so the fresh id is never a reuse. -/
theorem add_idempotent_append (ws : List String) (w : String) :
    ((Vocab.ofWords ws).contains w = true →
        (Vocab.ofWords ws).add w = Vocab.ofWords ws) ∧
      ((Vocab.ofWords ws).contains w = false →
        ((Vocab.ofWords ws).add w).num_to_word =
            (Vocab.ofWords ws).num_to_word ++ [w] ∧
          ((Vocab.ofWords ws).add w).numberize w =
            some (Vocab.ofWords ws).num_to_word.length) ∧
      (∀ u, (Vocab.ofWords ws).contains u = true →
        ((Vocab.ofWords ws).add w).numberize u = (Vocab.ofWords ws).numberize u) ∧
      (∀ u n, (Vocab.ofWords ws).numberize u = some n →
        n < (Vocab.ofWords ws).num_to_word.length) := by
  refine ⟨?_, ?_, ?_, ?_⟩
  · intro hc
    rw [Vocab.add, if_pos hc]
  · intro hnc
    have hlw : (Vocab.ofWords ws).word_to_num.lookup w = none := by
      cases hlu : (Vocab.ofWords ws).word_to_num.lookup w with
      | none => rfl
      | some n => unfold Vocab.contains at hnc; rw [hlu] at hnc; simp at hnc
    constructor
    · rw [Vocab.add, if_neg (by simp [hnc])]
    · rw [Vocab.add, if_neg (by simp [hnc])]
      unfold Vocab.numberize
      dsimp only
      rw [VocabLemmas.lookup_append_none hlw]
      simp [List.lookup]
  · intro u hcu
    obtain ⟨n, hn⟩ : ∃ n, (Vocab.ofWords ws).word_to_num.lookup u = some n :=
      Option.isSome_iff_exists.mp hcu
    have := VocabLemmas.lookup_add_of_contains (v := Vocab.ofWords ws) w hcu
    simp [Vocab.numberize, this, hn]
  · intro u n hn
    obtain ⟨z, hz⟩ : ∃ z, (Vocab.ofWords ws).word_to_num.lookup "<UNK>" = some z :=
      Option.isSome_iff_exists.mp (VocabLemmas.ofWords_contains_unk ws)
    have hlook : ∃ x, (Vocab.ofWords ws).word_to_num.lookup x = some n := by
      unfold Vocab.numberize at hn
      cases hlu : (Vocab.ofWords ws).word_to_num.lookup u with
      | some m => rw [hlu] at hn; exact ⟨u, by simpa [← hn] using hlu⟩
      | none => rw [hlu] at hn; exact ⟨"<UNK>", hn⟩
    obtain ⟨x, hx⟩ := hlook
    have := VocabLemmas.ofWords_sound ws x n hx
    exact (List.get?_eq_some.mp this).1

/-- Witness for C7: idempotence on a present word, append/fresh-id on an
absent one, and id stability, on the vocabulary `{<BOS>, <EOS>, <UNK>, a}`. -/
theorem add_idempotent_append_witness :
    ((Vocab.ofWords ["a"]).add "a" = Vocab.ofWords ["a"]) ∧
      ((Vocab.ofWords ["a"]).add "b").num_to_word =
          (Vocab.ofWords ["a"]).num_to_word ++ ["b"] ∧
      ((Vocab.ofWords ["a"]).add "b").numberize "b" =
          some (Vocab.ofWords ["a"]).num_to_word.length ∧
      ((Vocab.ofWords ["a"]).add "b").numberize "a" =
          (Vocab.ofWords ["a"]).numberize "a" :=
  ⟨(add_idempotent_append ["a"] "a").1 (by decide),
    ((add_idempotent_append ["a"] "b").2.1 (by decide)).1,
    ((add_idempotent_append ["a"] "b").2.1 (by decide)).2,
    (add_idempotent_append ["a"] "b").2.2.1 "a" (by decide)⟩

namespace VocabLemmas

/-- `add` on a present word returns the very same structure. -/
theorem add_eq_of_contains {v : Vocab} {w : String} (hc : v.contains w = true) :
    v.add w = v := by
  rw [Vocab.add, if_pos hc]

/-- Membership after `add`. -/
theorem contains_add (v : Vocab) (w u : String) :
    (v.add w).contains u = (u == w || v.contains u) := by
  cases hc : v.contains w with
  | true =>
    rw [add_eq_of_contains hc]
    cases huw : u == w with
    | false => simp
    | true =>
      obtain rfl : u = w := by simpa using huw
      simp [hc]
  | false =>
    rw [Vocab.add, if_neg (by simp [hc])]
    unfold Vocab.contains at hc ⊢
    dsimp only
    cases hlu : v.word_to_num.lookup u with
    | some m => simp [lookup_append_some hlu, hlu]
    | none =>
      rw [lookup_append_none hlu]
      simp only [List.lookup, hlu]
      cases huw : u == w with
      | true => simp [huw]
      | false => simp [huw]

/-- The size of a vocabulary after a run of `add`s: the old size plus the
number of distinct pushed words that were not already present. -/
theorem length_foldl_add (ws : List String) : ∀ v : Vocab,
    (ws.foldl Vocab.add v).num_to_word.length =
      v.num_to_word.length +
        (ws.toFinset.filter (fun u => v.contains u = false)).card := by
  induction ws with
  | nil => intro v; simp
  | cons w ws ih =>
    intro v
    rw [List.foldl_cons, ih (v.add w)]
    cases hc : v.contains w with
    | true =>
      rw [add_eq_of_contains hc, List.toFinset_cons, Finset.filter_insert,
        if_neg (by simp [hc])]
    | false =>
      have hlen : (v.add w).num_to_word.length = v.num_to_word.length + 1 := by
        rw [Vocab.add, if_neg (by simp [hc])]
        simp
      have hfilter :
          ((w :: ws).toFinset.filter (fun u => v.contains u = false)) =
            insert w (ws.toFinset.filter (fun u => v.contains u = false)) := by
        rw [List.toFinset_cons, Finset.filter_insert, if_pos (by simp [hc])]
      have herase :
          (ws.toFinset.filter (fun u => v.contains u = false)).erase w =
            ws.toFinset.filter (fun u => (v.add w).contains u = false) := by
        ext u
        simp only [Finset.mem_erase, Finset.mem_filter, contains_add]
        constructor
        · rintro ⟨hne, hmem, hv⟩
          refine ⟨hmem, ?_⟩
          simp [hne, hv]
        · rintro ⟨hmem, h⟩
          simp only [Bool.or_eq_false_iff, beq_eq_false_iff_ne] at h
          exact ⟨h.1, hmem, h.2⟩
      have hinsert :
          insert w (ws.toFinset.filter (fun u => v.contains u = false)) =
            insert w ((ws.toFinset.filter (fun u => v.contains u = false)).erase w) := by
        ext u
        by_cases hu : u = w <;> simp [hu]
      rw [hfilter, hinsert, Finset.card_insert_of_not_mem (Finset.not_mem_erase w _),
        herase, hlen]
      omega

end VocabLemmas

/-- Counterexample to C8: the reserved token `'<EOS>'` is a word that
`__main__` adds to both vocabularies (`read_data` appends `'<EOS>'` to every
sentence), yet adding it is a no-op, so the size (3) is not 3 plus the
number of distinct added words (1). -/
theorem vocab_size_counterexample :
    ¬ ((Vocab.ofWords ["<EOS>"]).num_to_word.length =
        3 + (["<EOS>"] : List String).toFinset.card) := by decide

/-- C8 (amended): the size of a vocabulary built by any sequence of `add`
operations equals 3 plus the number of distinct added words that are not
among the three pre-existing reserved tokens. -/
theorem vocab_size_counts_distinct_new (ws : List String) :
    (Vocab.ofWords ws).num_to_word.length =
      3 + (ws.toFinset.filter (fun u => Vocab.init.contains u = false)).card :=
  VocabLemmas.length_foldl_add ws Vocab.init

section CheckpointLemmas

variable {α : Type}

theorem trainCheckpoints_append (epochs : List (ℤ × α)) (e : ℤ × α) :
    trainCheckpoints (epochs ++ [e]) =
      checkpointUpdate (trainCheckpoints epochs) e.1 e.2 := by
  unfold trainCheckpoints
  rw [List.foldl_append]
  rfl

/-- The stored best loss is the minimum loss observed so far. -/
theorem trainCheckpoints_min (epochs : List (ℤ × α)) (hne : epochs ≠ []) :
    ∃ b, trainCheckpoints epochs = some b ∧
      b.1 ∈ epochs.map Prod.fst ∧ ∀ l ∈ epochs.map Prod.fst, b.1 ≤ l := by
  induction epochs using List.reverseRecOn with
  | nil => exact absurd rfl hne
  | append_singleton l e ih =>
    rw [trainCheckpoints_append]
    rcases eq_or_ne l [] with rfl | hl
    · refine ⟨e, rfl, ?_, ?_⟩
      · simp
      · intro x hx
        simp only [List.nil_append, List.map_cons, List.map_nil,
          List.mem_singleton] at hx
        omega
    · obtain ⟨b, hb, hmem, hmin⟩ := ih hl
      rw [hb]
      unfold checkpointUpdate
      by_cases hlt : e.1 < b.1
      · refine ⟨(e.1, e.2), by simp [hlt], ?_, ?_⟩
        · simp
        · intro x hx
          simp only [List.map_append, List.map_cons, List.map_nil,
            List.mem_append, List.mem_singleton] at hx
          rcases hx with hx | hx
          · exact le_of_lt (lt_of_lt_of_le hlt (hmin x hx))
          · omega
      · refine ⟨b, by simp [hlt], ?_, ?_⟩
        · simp only [List.map_append, List.mem_append]
          exact Or.inl hmem
        · intro x hx
          simp only [List.map_append, List.map_cons, List.map_nil,
            List.mem_append, List.mem_singleton] at hx
          rcases hx with hx | hx
          · exact hmin x hx
          · omega

end CheckpointLemmas

/-- C9: checkpoint selection across the epoch loop.  `best_dev_loss` never
increases from one epoch to the next; the first epoch always snapshots; a
later epoch replaces the snapshot exactly when its held-out loss is strictly
lower; and the stored best snapshot's held-out loss equals the minimum
held-out loss observed up to that point. -/
theorem checkpoint_monotone_and_min {α : Type} (epochs : List (ℤ × α))
    (e : ℤ × α) :
    (∀ b, trainCheckpoints epochs = some b →
        ∃ b', trainCheckpoints (epochs ++ [e]) = some b' ∧ b'.1 ≤ b.1) ∧
      trainCheckpoints [e] = some e ∧
      (∀ b, trainCheckpoints epochs = some b → e.1 < b.1 →
        trainCheckpoints (epochs ++ [e]) = some e) ∧
      (∀ b, trainCheckpoints epochs = some b → ¬e.1 < b.1 →
        trainCheckpoints (epochs ++ [e]) = some b) ∧
      (epochs ≠ [] → ∃ b, trainCheckpoints epochs = some b ∧
        b.1 ∈ epochs.map Prod.fst ∧ ∀ l ∈ epochs.map Prod.fst, b.1 ≤ l) := by
  refine ⟨?_, rfl, ?_, ?_, trainCheckpoints_min epochs⟩
  · intro b hb
    rw [trainCheckpoints_append, hb]
    unfold checkpointUpdate
    by_cases hlt : e.1 < b.1
    · exact ⟨(e.1, e.2), by simp [hlt], le_of_lt hlt⟩
    · exact ⟨b, by simp [hlt], le_refl _⟩
  · intro b hb hlt
    rw [trainCheckpoints_append, hb]
    unfold checkpointUpdate
    simp [hlt]
  · intro b hb hlt
    rw [trainCheckpoints_append, hb]
    unfold checkpointUpdate
    simp [hlt]

/-- Witness for C9 on a concrete two-epoch run (losses 2 then 1, snapshots
named by integers). -/
theorem checkpoint_monotone_and_min_witness :
    (∃ b', trainCheckpoints [((2 : ℤ), (0 : ℤ)), (1, 1)] = some b' ∧
        b'.1 ≤ (2 : ℤ)) ∧
      (∃ b, trainCheckpoints [((2 : ℤ), (0 : ℤ))] = some b ∧
        b.1 ∈ [((2 : ℤ), (0 : ℤ))].map Prod.fst ∧
        ∀ l ∈ [((2 : ℤ), (0 : ℤ))].map Prod.fst, b.1 ≤ l) :=
  ⟨(checkpoint_monotone_and_min [((2 : ℤ), (0 : ℤ))] (1, 1)).1 (2, 0) (by decide),
    (checkpoint_monotone_and_min [((2 : ℤ), (0 : ℤ))] (1, 1)).2.2.2.2
      (by decide)⟩

theorem mapFallible_length {f : α → Option β} :
    ∀ {l : List α} {r : List β}, mapFallible f l = some r → r.length = l.length := by
  intro l
  induction l with
  | nil =>
    intro r h
    simp [mapFallible] at h
    simp [← h]
  | cons x xs ih =>
    intro r h
    unfold mapFallible at h
    cases hfx : f x with
    | none => exact absurd (hfx ▸ h) (by simp)
    | some y =>
      rw [hfx] at h
      cases hrest : mapFallible f xs with
      | none => exact absurd (hrest ▸ h) (by simp)
      | some ys =>
        rw [hrest] at h
        obtain rfl : y :: ys = r := by simpa using h
        simp [ih hrest]

theorem mapFallible_mem {f : α → Option β} :
    ∀ {l : List α} {r : List β}, mapFallible f l = some r →
      ∀ b ∈ r, ∃ a ∈ l, f a = some b := by
  intro l
  induction l with
  | nil =>
    intro r h
    simp [mapFallible] at h
    subst h
    simp
  | cons x xs ih =>
    intro r h
    unfold mapFallible at h
    cases hfx : f x with
    | none => exact absurd (hfx ▸ h) (by simp)
    | some y =>
      rw [hfx] at h
      cases hrest : mapFallible f xs with
      | none => exact absurd (hrest ▸ h) (by simp)
      | some ys =>
        rw [hrest] at h
        obtain rfl : y :: ys = r := by simpa using h
        intro c hc
        rcases List.mem_cons.mp hc with rfl | hc
        · exact ⟨x, List.mem_cons_self x xs, hfx⟩
        · obtain ⟨z, hz, hfz⟩ := ih hrest c hc
          exact ⟨z, List.mem_cons_of_mem x hz, hfz⟩

/-- Invariant of the greedy decoding loop: it emits at most `fuel` new ids
beyond `acc`, and every id it returns either was already in `acc` or
denumberizes to a word that is not `'<EOS>'`. -/
theorem translateLoop_spec (att : Attention) (ge : Vocab) (dec : Decoder)
    (fencs : List Vec) :
    ∀ (fuel h enum : Nat) (acc enums : List Nat),
      translateLoop att ge dec fencs fuel h enum acc = some enums →
      enums.length ≤ acc.length + fuel ∧
        ∀ e ∈ enums, e ∈ acc ∨
          ∃ w, ge.denumberize e = some w ∧ w ≠ "<EOS>" := by
  intro fuel
  induction fuel with
  | zero =>
    intro h enum acc enums hl
    obtain rfl : acc = enums := by simpa [translateLoop] using hl
    exact ⟨Nat.le_add_right _ _, fun e he => Or.inl he⟩
  | succ fuel ih =>
    intro h enum acc enums hl
    unfold translateLoop at hl
    cases hstep : Decoder.step att dec fencs h enum with
    | none => rw [hstep] at hl; simp at hl
    | some r =>
      obtain ⟨o, h'⟩ := r
      rw [hstep] at hl
      simp only at hl
      cases hden : ge.denumberize (argmax o) with
      | none => rw [hden] at hl; simp at hl
      | some w =>
        rw [hden] at hl
        simp only at hl
        by_cases hw : w = "<EOS>"
        · rw [if_pos hw] at hl
          obtain rfl : acc = enums := by simpa using hl
          exact ⟨by omega, fun e he => Or.inl he⟩
        · rw [if_neg hw] at hl
          obtain ⟨hlen, hmem⟩ := ih h' (argmax o) (acc ++ [argmax o]) enums hl
          refine ⟨?_, ?_⟩
          · simp only [List.length_append, List.length_cons,
              List.length_nil] at hlen
            omega
          · intro e he
            rcases hmem e he with hin | hprop
            · rcases List.mem_append.mp hin with hin | hin
              · exact Or.inl hin
              · obtain rfl : e = argmax o := by simpa using hin
                exact Or.inr ⟨w, hden, hw⟩
            · exact Or.inr hprop

/-- C3: whenever `Model.translate` returns a word list, that list has at most
100 words and never contains `'<EOS>'`: the loop breaks at the first step
whose argmax word is the end token, without emitting it, and otherwise stops
after 100 steps. -/
theorem translate_bounded_no_eos (att : Attention) (gf ge : Vocab) (m : Model)
    (fwords ws : List String)
    (h : Model.translate att gf ge m fwords = some ws) :
    ws.length ≤ 100 ∧ "<EOS>" ∉ ws := by
  unfold Model.translate at h
  cases hf : mapFallible gf.numberize fwords with
  | none => exact absurd (hf ▸ h) (by simp)
  | some fnums =>
    rw [hf] at h
    dsimp only at h
    cases hb : ge.numberize "<BOS>" with
    | none => rw [hb] at h; simp at h
    | some b =>
      rw [hb] at h
      dsimp only at h
      cases hloop : translateLoop att ge m.dec (m.enc.sequence fnums)
          100 m.dec.start b [] with
      | none => rw [hloop] at h; simp at h
      | some enums =>
        rw [hloop] at h
        obtain ⟨hlen, hmem⟩ := translateLoop_spec att ge m.dec
          (m.enc.sequence fnums) 100 m.dec.start b [] enums hloop
        constructor
        · rw [mapFallible_length h]
          simpa using hlen
        · intro hmem'
          obtain ⟨e, he, hde⟩ := mapFallible_mem h "<EOS>" hmem'
          rcases hmem e he with hin | ⟨w, hw, hne⟩
          · simp at hin
          · rw [hde] at hw
            exact hne (by simpa using hw.symm)

/-- Witness for C3: a concrete translation (immediate `'<EOS>'` argmax)
returning the empty list, which is within the bound and free of the end
token. -/
theorem translate_bounded_no_eos_witness :
    Model.translate attEnd Vocab.init Vocab.init model0 [] = some [] ∧
      ([] : List String).length ≤ 100 ∧ "<EOS>" ∉ ([] : List String) :=
  ⟨by decide,
    translate_bounded_no_eos attEnd Vocab.init Vocab.init model0 [] []
      (by decide)⟩

namespace VocabLemmas

/-- `numberize` is total as soon as `'<UNK>'` is present. -/
theorem numberize_isSome_of_unk {v : Vocab} (hunk : v.contains "<UNK>" = true)
    (w : String) : ∃ n, v.numberize w = some n := by
  obtain ⟨u, hu⟩ := Option.isSome_iff_exists.mp hunk
  unfold Vocab.numberize
  cases hlu : v.word_to_num.lookup w with
  | some n => exact ⟨n, rfl⟩
  | none => exact ⟨u, hu⟩

/-- Ids returned by `numberize` index into `num_to_word`. -/
theorem numberize_lt {v : Vocab} (hs : v.LookupSound) {w : String} {n : Nat}
    (h : v.numberize w = some n) : n < v.num_to_word.length := by
  unfold Vocab.numberize at h
  cases hlu : v.word_to_num.lookup w with
  | some m =>
    rw [hlu] at h
    obtain rfl : m = n := by simpa using h
    exact (List.get?_eq_some.mp (hs w m hlu)).1
  | none =>
    rw [hlu] at h
    exact (List.get?_eq_some.mp (hs "<UNK>" n h)).1

/-- A built vocabulary is never empty. -/
theorem ofWords_length_pos (ws : List String) :
    0 < (Vocab.ofWords ws).num_to_word.length := by
  obtain ⟨u, hu⟩ := Option.isSome_iff_exists.mp (ofWords_contains_unk ws)
  have := (List.get?_eq_some.mp (ofWords_sound ws "<UNK>" u hu)).1
  omega

end VocabLemmas

theorem argmaxAux_lt (l : List ℤ) :
    ∀ (i bi : Nat) (bv : ℤ), bi < i → argmaxAux l i bi bv < i + l.length := by
  induction l with
  | nil =>
    intro i bi bv h
    simpa [argmaxAux] using h
  | cons x xs ih =>
    intro i bi bv h
    unfold argmaxAux
    by_cases hlt : bv < x
    · rw [if_pos hlt]
      have := ih (i + 1) i x (Nat.lt_succ_self i)
      simp only [List.length_cons]
      omega
    · rw [if_neg hlt]
      have := ih (i + 1) bi bv (by omega)
      simp only [List.length_cons]
      omega

/-- The greedy argmax of a nonempty row is a valid index into it. -/
theorem argmax_lt {l : List ℤ} (h : l ≠ []) : argmax l < l.length := by
  cases l with
  | nil => exact absurd rfl h
  | cons x xs =>
    unfold argmax
    have := argmaxAux_lt xs 1 0 x Nat.zero_lt_one
    simp only [List.length_cons]
    omega

theorem mapFallible_isSome {f : α → Option β} :
    ∀ {l : List α}, (∀ a ∈ l, ∃ b, f a = some b) →
      ∃ r, mapFallible f l = some r := by
  intro l
  induction l with
  | nil => intro _; exact ⟨[], rfl⟩
  | cons x xs ih =>
    intro h
    obtain ⟨y, hy⟩ := h x (List.mem_cons_self x xs)
    obtain ⟨r, hr⟩ := ih fun z hz => h z (List.mem_cons_of_mem x hz)
    exact ⟨y :: r, by simp [mapFallible, hy, hr]⟩

/-- When the position table has a row for the current state, `step` returns
the attention output and the incremented state. -/
theorem step_eq_of_get (att : Attention) (dec : Decoder) (fencs : List Vec)
    {h : Nat} {q0 : Vec} (enum : Nat) (hq0 : dec.epos.get? h = some q0) :
    Decoder.step att dec fencs h enum =
      some (att q0 (dec.fpos.take fencs.length) (fencs.map dec.out), h + 1) := by
  unfold Decoder.step
  rw [hq0]

/-- When the position table has no row for the current state (`state ≥
maxlen`), `step` fails: the `epos[state]` lookup raises. -/
theorem step_eq_none_of_overflow (att : Attention) (dec : Decoder)
    (fencs : List Vec) {h : Nat} (enum : Nat) (hq : dec.epos.get? h = none) :
    Decoder.step att dec fencs h enum = none := by
  unfold Decoder.step
  rw [hq]

/-- The scoring loop succeeds whenever the remaining target words fit under
the position cap (and the vocabulary/attention shapes agree). -/
theorem logprobLoop_isSome (att : Attention) (ge : Vocab) (dec : Decoder)
    (fencs : List Vec) (hs : ge.LookupSound)
    (hunk : ge.contains "<UNK>" = true) (hepos : dec.epos.length = 100)
    (hatt : ∀ q k v, (att q k v).length = ge.num_to_word.length) :
    ∀ (ws : List String) (h : Nat) (acc : ℤ) (enum : Nat),
      h + ws.length ≤ 100 →
      ∃ p, logprobLoop att ge dec fencs ws h acc enum = some p := by
  intro ws
  induction ws with
  | nil => intro h acc enum _; exact ⟨acc, rfl⟩
  | cons w ws ih =>
    intro h acc enum hbound
    have hh : h < 100 := by
      simp only [List.length_cons] at hbound
      omega
    have hh' : h < dec.epos.length := by omega
    obtain ⟨q0, hq0⟩ : ∃ q0, dec.epos.get? h = some q0 :=
      ⟨_, List.get?_eq_get hh'⟩
    obtain ⟨enum', henum'⟩ := VocabLemmas.numberize_isSome_of_unk hunk w
    have hlt : enum' < ge.num_to_word.length :=
      VocabLemmas.numberize_lt hs henum'
    obtain ⟨p0, hp0⟩ :
        ∃ p0, (att q0 (dec.fpos.take fencs.length) (fencs.map dec.out)).get?
          enum' = some p0 := by
      have : enum' < (att q0 (dec.fpos.take fencs.length)
          (fencs.map dec.out)).length := by rw [hatt]; exact hlt
      exact ⟨_, List.get?_eq_get this⟩
    obtain ⟨p, hp⟩ := ih (h + 1) (acc + p0) enum' (by
      simp only [List.length_cons] at hbound
      omega)
    refine ⟨p, ?_⟩
    unfold logprobLoop
    rw [step_eq_of_get att dec fencs enum hq0]
    dsimp only
    rw [henum']
    dsimp only
    rw [hp0]
    exact hp

/-- The scoring loop fails with a position overflow whenever the remaining
target words run past the cap: state 100 is eventually passed to `step` and
the `epos[100]` lookup fails. -/
theorem logprobLoop_none (att : Attention) (ge : Vocab) (dec : Decoder)
    (fencs : List Vec) (hs : ge.LookupSound)
    (hunk : ge.contains "<UNK>" = true) (hepos : dec.epos.length = 100)
    (hatt : ∀ q k v, (att q k v).length = ge.num_to_word.length) :
    ∀ (ws : List String) (h : Nat) (acc : ℤ) (enum : Nat),
      h ≤ 100 → 100 < h + ws.length →
      logprobLoop att ge dec fencs ws h acc enum = none := by
  intro ws
  induction ws with
  | nil =>
    intro h acc enum hle hbound
    simp only [List.length_nil, Nat.add_zero] at hbound
    omega
  | cons w ws ih =>
    intro h acc enum hle hbound
    by_cases hh : h = 100
    · subst hh
      have hq : dec.epos.get? 100 = none := by
        rw [List.get?_eq_none]
        omega
      unfold logprobLoop
      rw [step_eq_none_of_overflow att dec fencs enum hq]
    · have hh' : h < dec.epos.length := by omega
      obtain ⟨q0, hq0⟩ : ∃ q0, dec.epos.get? h = some q0 :=
        ⟨_, List.get?_eq_get hh'⟩
      obtain ⟨enum', henum'⟩ := VocabLemmas.numberize_isSome_of_unk hunk w
      have hlt : enum' < ge.num_to_word.length :=
        VocabLemmas.numberize_lt hs henum'
      obtain ⟨p0, hp0⟩ :
          ∃ p0, (att q0 (dec.fpos.take fencs.length) (fencs.map dec.out)).get?
            enum' = some p0 := by
        have : enum' < (att q0 (dec.fpos.take fencs.length)
            (fencs.map dec.out)).length := by rw [hatt]; exact hlt
        exact ⟨_, List.get?_eq_get this⟩
      unfold logprobLoop
      rw [step_eq_of_get att dec fencs enum hq0]
      dsimp only
      rw [henum']
      dsimp only
      rw [hp0]
      exact ih (h + 1) (acc + p0) enum' (by omega) (by
        simp only [List.length_cons] at hbound
        omega)

/-- The decoding loop always succeeds when the position table covers the 100
iterations, and every id it emits is a valid index into the vocabulary. -/
theorem translateLoop_isSome (att : Attention) (ge : Vocab) (dec : Decoder)
    (fencs : List Vec) (hepos : dec.epos.length = 100)
    (hatt : ∀ q k v, (att q k v).length = ge.num_to_word.length)
    (hpos : 0 < ge.num_to_word.length) :
    ∀ (fuel h enum : Nat) (acc : List Nat), h + fuel ≤ 100 →
      (∀ e ∈ acc, e < ge.num_to_word.length) →
      ∃ enums, translateLoop att ge dec fencs fuel h enum acc = some enums ∧
        ∀ e ∈ enums, e < ge.num_to_word.length := by
  intro fuel
  induction fuel with
  | zero => intro h enum acc _ hacc; exact ⟨acc, rfl, hacc⟩
  | succ fuel ih =>
    intro h enum acc hbound hacc
    have hh' : h < dec.epos.length := by omega
    obtain ⟨q0, hq0⟩ : ∃ q0, dec.epos.get? h = some q0 :=
      ⟨_, List.get?_eq_get hh'⟩
    set o := att q0 (dec.fpos.take fencs.length) (fencs.map dec.out) with ho
    have holen : o.length = ge.num_to_word.length := hatt _ _ _
    have hone : o ≠ [] := by
      intro hnil
      rw [hnil] at holen
      simp only [List.length_nil] at holen
      omega
    have hargmax : argmax o < ge.num_to_word.length := holen ▸ argmax_lt hone
    obtain ⟨w, hw⟩ : ∃ w, ge.denumberize (argmax o) = some w :=
      ⟨_, List.get?_eq_get hargmax⟩
    by_cases hweos : w = "<EOS>"
    · refine ⟨acc, ?_, hacc⟩
      unfold translateLoop
      rw [step_eq_of_get att dec fencs enum hq0]
      dsimp only
      rw [← ho, hw]
      dsimp only
      rw [if_pos hweos]
    · obtain ⟨enums, henums, hprop⟩ := ih (h + 1) (argmax o)
        (acc ++ [argmax o]) (by omega) (by
          intro e he
          rcases List.mem_append.mp he with he | he
          · exact hacc e he
          · obtain rfl : e = argmax o := by simpa using he
            exact hargmax)
      refine ⟨enums, ?_, hprop⟩
      unfold translateLoop
      rw [step_eq_of_get att dec fencs enum hq0]
      dsimp only
      rw [← ho, hw]
      dsimp only
      rw [if_neg hweos]
      exact henums

set_option maxRecDepth 10000 in
/-- Counterexample to C1: `Model.logprob` has no 100-step cap — it loops over
all of `ewords`.  With the source's 100-row position tables and a
101-word target, all vocabulary and score-row lookups are in range (the same
call succeeds for a 100-word target, first conjunct), yet the call fails:
the loop reaches state 100 and passes it to `Decoder.step`, whose
`epos[100]` lookup is out of range (second conjunct).  So the claim that
every state passed to `step` stays below `maxlen` in the scoring path, for
target sequences of any length, is false. -/
theorem logprob_position_cap_counterexample :
    Model.logprob attFlat vocabA vocabA modelA ["a"]
        (List.replicate 100 "a") = some 0 ∧
      Model.logprob attFlat vocabA vocabA modelA ["a"]
        (List.replicate 101 "a") = none := by
  constructor
  · decide
  · decide

/-- C1 (amended): with the source constructor's 100-row `epos` table and an
attention row width matching the target vocabulary, (i) `Model.translate`
never passes a state ≥ 100 to `Decoder.step` — the translation path always
completes without a position overflow, for every source sentence; (ii) in
`Model.logprob` the states passed to `step` are 0 .. `len(ewords) - 1`, so
the scoring path stays below the cap exactly when `len(ewords) ≤ 100`:
scoring succeeds for targets of at most 100 words and fails with a position
overflow (the `epos[100]` lookup) for any longer target. -/
theorem position_cap_amended (att : Attention) (fs es : List String)
    (m : Model) (fwords ewords : List String)
    (hepos : m.dec.epos.length = 100)
    (hatt : ∀ q k v, (att q k v).length =
      (Vocab.ofWords es).num_to_word.length) :
    (ewords.length ≤ 100 → ∃ p, Model.logprob att (Vocab.ofWords fs)
        (Vocab.ofWords es) m fwords ewords = some p) ∧
      (100 < ewords.length → Model.logprob att (Vocab.ofWords fs)
        (Vocab.ofWords es) m fwords ewords = none) ∧
      ∃ ws, Model.translate att (Vocab.ofWords fs) (Vocab.ofWords es) m
        fwords = some ws := by
  have hs := VocabLemmas.ofWords_sound es
  have hunk := VocabLemmas.ofWords_contains_unk es
  obtain ⟨fnums, hf⟩ := mapFallible_isSome (f := (Vocab.ofWords fs).numberize)
    (l := fwords) fun a _ =>
      VocabLemmas.numberize_isSome_of_unk (VocabLemmas.ofWords_contains_unk fs) a
  obtain ⟨b, hb⟩ := VocabLemmas.numberize_isSome_of_unk hunk "<BOS>"
  have hstart : m.dec.start = 0 := rfl
  refine ⟨?_, ?_, ?_⟩
  · intro hle
    obtain ⟨p, hp⟩ := logprobLoop_isSome att (Vocab.ofWords es) m.dec
      (m.enc.sequence fnums) hs hunk hepos hatt ewords m.dec.start 0 b
      (by rw [hstart]; omega)
    refine ⟨p, ?_⟩
    unfold Model.logprob
    rw [hf]
    dsimp only
    rw [hb]
    exact hp
  · intro hgt
    have hp := logprobLoop_none att (Vocab.ofWords es) m.dec
      (m.enc.sequence fnums) hs hunk hepos hatt ewords m.dec.start 0 b
      (by rw [hstart]; omega) (by rw [hstart]; omega)
    unfold Model.logprob
    rw [hf]
    dsimp only
    rw [hb]
    exact hp
  · obtain ⟨enums, henums, hprop⟩ := translateLoop_isSome att
      (Vocab.ofWords es) m.dec (m.enc.sequence fnums) hepos hatt
      (VocabLemmas.ofWords_length_pos es) 100 m.dec.start b []
      (by rw [hstart]) (by intro e he; simp at he)
    obtain ⟨ws, hws⟩ := mapFallible_isSome
      (f := (Vocab.ofWords es).denumberize) (l := enums) fun e he =>
        ⟨_, List.get?_eq_get (hprop e he)⟩
    refine ⟨ws, ?_⟩
    unfold Model.translate
    rw [hf]
    dsimp only
    rw [hb]
    dsimp only
    rw [henums]
    exact hws

/-- Witness for the amended C1: a short target scores successfully, a
101-word target fails, and translation succeeds, on a concrete model with
the constructor's 100-row tables. -/
theorem position_cap_amended_witness :
    (∃ p, Model.logprob attEnd (Vocab.ofWords []) (Vocab.ofWords [])
        model0 [] ["x"] = some p) ∧
      Model.logprob attEnd (Vocab.ofWords []) (Vocab.ofWords []) model0 []
        (List.replicate 101 "x") = none ∧
      ∃ ws, Model.translate attEnd (Vocab.ofWords []) (Vocab.ofWords [])
        model0 [] = some ws :=
  ⟨(position_cap_amended attEnd [] [] model0 [] ["x"] (by decide)
      fun q k v => rfl).1 (by decide),
    (position_cap_amended attEnd [] [] model0 [] (List.replicate 101 "x")
      (by decide) fun q k v => rfl).2.1 (by decide),
    (position_cap_amended attEnd [] [] model0 [] [] (by decide)
      fun q k v => rfl).2.2⟩
